import Mathlib

/-
  Verification of the tiered data-access layer of the MOEX stocks/news MCP server.

  The Go sources are shallowly embedded as pure Lean functions:
  - float64 numeric fields (price, change, changePerc) are modelled as Int
    (ideal ordered values; NaN/rounding behaviour is out of scope of the claims),
  - int64 fields as Int, time.Time instants as Nat (seconds since epoch;
    Truncate(24h) becomes integer division by 86400),
  - context/HTTP/Mongo effects become explicit state passing or oracle
    function parameters; fallible calls return Except String.
-/

namespace StocksInfo

/-- Domain model of internal/core/domain/models/stock.go: Stock. -/
structure Stock where
  ticker : String
  name : String
  price : Int
  change : Int
  changePerc : Int
  volume : Int
  updatedAt : Nat
  deriving Repr, DecidableEq

/-- Domain model of internal/core/domain/models/news.go: News. -/
structure News where
  id : String
  title : String
  description : String
  content : String
  url : String
  source : String
  publishedAt : Nat
  createdAt : Nat
  tags : List String
  relatedTo : List String
  deriving Repr, DecidableEq

/-- Embedding of containsIgnoreCase (StockServiceImpl helper).
The Go body is literally: s, substr = s, substr; return true - it ignores
both arguments and returns true unconditionally, despite its own doc comment
saying it checks case-insensitive substring containment. -/
def containsIgnoreCase (s substr : String) : Bool :=
  let _ := s
  let _ := substr
  true

/-- Embedding of StockServiceImpl.GetStockInfo. The repository lookup is an
oracle parameter; the empty-ticker check runs before it is consulted. -/
def StockServiceImpl.GetStockInfo (getStock : String → Except String Stock)
    (ticker : String) : Except String Stock :=
  if ticker = "" then .error "тикер не может быть пустым"
  else getStock ticker

/-- Embedding of StockServiceImpl.SearchStocks: validates the query, fetches
the whole universe, then filters with containsIgnoreCase on ticker and name. -/
def StockServiceImpl.SearchStocks (getStocks : Unit → Except String (List Stock))
    (query : String) : Except String (List Stock) :=
  if query = "" then .error "поисковый запрос не может быть пустым"
  else
    match getStocks () with
    | .error e => .error e
    | .ok stocks =>
      let queryLower := query
      .ok (stocks.filter (fun stock =>
        containsIgnoreCase stock.ticker queryLower || containsIgnoreCase stock.name queryLower))

/-- Embedding of NewsServiceImpl.SearchNewsByKeyword: empty-keyword check in
front of the repository oracle. -/
def NewsServiceImpl.SearchNewsByKeyword (getNewsByKeyword : String → Except String (List News))
    (keyword : String) : Except String (List News) :=
  if keyword = "" then .error "ключевое слово не может быть пустым"
  else getNewsByKeyword keyword

/-- Embedding of containsTickerInNews (NewsServiceImpl helper): exact match
in relatedTo, else containsIgnoreCase over title, description, content. -/
def containsTickerInNews (news : News) (ticker : String) : Bool :=
  news.relatedTo.any (fun t => t == ticker) ||
    (containsIgnoreCase news.title ticker ||
     containsIgnoreCase news.description ticker ||
     containsIgnoreCase news.content ticker)

/-- The filtering loop of NewsServiceImpl.GetNewsForMultipleTickers: for each
news item, the first matching ticker triggers the seen-map check; unseen ids
are appended to the result and marked seen. -/
def newsMatchLoop (tickers : List String) : List News → List String → List News
  | [], _ => []
  | news :: rest, seen =>
    if tickers.any (fun ticker => containsTickerInNews news ticker) then
      if seen.contains news.id then newsMatchLoop tickers rest seen
      else news :: newsMatchLoop tickers rest (news.id :: seen)
    else newsMatchLoop tickers rest seen

/-- Embedding of NewsServiceImpl.GetNewsForMultipleTickers: empty-list check,
fetch of all of today's news through the oracle, then the dedup filter loop. -/
def NewsServiceImpl.GetNewsForMultipleTickers
    (getNewsForToday : Unit → Except String (List News))
    (tickers : List String) : Except String (List News) :=
  if tickers.length = 0 then .error "список тикеров не может быть пустым"
  else
    match getNewsForToday () with
    | .error e => .error e
    | .ok allNews => .ok (newsMatchLoop tickers allNews [])

/-- Character-level model of Go strings.Split with a one-character separator
(all separators used by generateNewsID are single characters). Splitting the
empty string yields one empty segment, as in Go. -/
def splitChar (sep : Char) : List Char → List (List Char)
  | [] => [[]]
  | c :: rest =>
    if c = sep then [] :: splitChar sep rest
    else
      match splitChar sep rest with
      | [] => [[c]]
      | p :: ps => (c :: p) :: ps

/-- Embedding of generateNewsID (news API client): split the URL on the path
separator, take the last segment, strip query string, fragment and extension;
the timestamp fallback fires only when the split yields no segments. The
ambient time.Now value is passed in as the explicit parameter now. -/
def generateNewsID (now : Nat) (url : List Char) : List Char :=
  let parts := splitChar '/' url
  if parts.length > 0 then
    let lastPart := parts.getD (parts.length - 1) []
    let lastPart := (splitChar '?' lastPart).getD 0 []
    let lastPart := (splitChar '#' lastPart).getD 0 []
    let lastPart := (splitChar '.' lastPart).getD 0 []
    lastPart
  else
    "news_".toList ++ (toString now).toList

/-- Splitting never produces an empty list of segments, exactly like Go
strings.Split with a non-empty separator. -/
theorem splitChar_ne_nil (sep : Char) (s : List Char) : splitChar sep s ≠ [] := by
  cases s with
  | nil => simp [splitChar]
  | cons c rest =>
    simp only [splitChar]
    split
    · simp
    · split <;> simp

/-- One forward pass of the bubble sort used by the ranking services,
written with an explicit carried element so that the recursion is structural:
the carried element is compared with the next one and the pair is swapped
whenever outOfOrder holds, so the pass drags a minimal element (with respect
to the comparator) to the end of the list. -/
def bubblePassAux (outOfOrder : α → α → Bool) (a : α) : List α → List α
  | [] => [a]
  | b :: l =>
    if outOfOrder a b then b :: bubblePassAux outOfOrder a l
    else a :: bubblePassAux outOfOrder b l

/-- One forward pass of the adjacent-swap loop over the whole list. -/
def bubblePass (outOfOrder : α → α → Bool) : List α → List α
  | [] => []
  | a :: l => bubblePassAux outOfOrder a l

/-- The bubble sort of the Go services: n-1 full forward passes. The Go inner
bound shrinks by one per outer iteration, but a full pass never swaps inside
the already-sorted suffix, so iterating full passes computes the same list. -/
def bubbleSort (outOfOrder : α → α → Bool) (l : List α) : List α :=
  (bubblePass outOfOrder)^[l.length - 1] l

theorem bubblePassAux_perm (f : α → α → Bool) :
    ∀ (a : α) (l : List α), (bubblePassAux f a l).Perm (a :: l) := by
  intro a l
  induction l generalizing a with
  | nil => simp [bubblePassAux]
  | cons b l ih =>
    simp only [bubblePassAux]
    split
    · exact ((ih a).cons b).trans (List.Perm.swap a b l)
    · exact (ih b).cons a

theorem bubblePass_perm (f : α → α → Bool) (l : List α) : (bubblePass f l).Perm l := by
  cases l with
  | nil => simp [bubblePass]
  | cons a l => simpa [bubblePass] using bubblePassAux_perm f a l

theorem bubblePass_iterate_perm (f : α → α → Bool) (n : Nat) (l : List α) :
    ((bubblePass f)^[n] l).Perm l := by
  induction n generalizing l with
  | zero => simp
  | succ n ih =>
    rw [Function.iterate_succ_apply]
    exact (ih (bubblePass f l)).trans (bubblePass_perm f l)

/-- A pass ends with an element that is in order after every element of the
input: the minimal element is carried to the last position. -/
theorem bubblePassAux_split (f : α → α → Bool)
    (hpos : ∀ a b c, f a b = true → f b c = true → f a c = true)
    (hneg : ∀ a b c, f a b = false → f b c = false → f a c = false)
    (hirr : ∀ a, f a a = false) :
    ∀ (a : α) (l : List α), ∃ l2 m, bubblePassAux f a l = l2 ++ [m] ∧
      ∀ x ∈ a :: l, f x m = false := by
  intro a l
  induction l generalizing a with
  | nil => exact ⟨[], a, rfl, by simpa using hirr a⟩
  | cons b l ih =>
    simp only [bubblePassAux]
    cases hfab : f a b with
    | true =>
      rw [if_pos rfl]
      obtain ⟨l2, m, heq, hmin⟩ := ih a
      refine ⟨b :: l2, m, by simp [heq], ?_⟩
      intro x hx
      rcases List.mem_cons.mp hx with rfl | hx2
      · exact hmin x (List.mem_cons_self x l)
      · rcases List.mem_cons.mp hx2 with rfl | hx3
        · cases hfbm : f x m with
          | true =>
            exact absurd (hmin a (List.mem_cons_self a l))
              (by simp [hpos a x m hfab hfbm])
          | false => rfl
        · exact hmin x (List.mem_cons_of_mem a hx3)
    | false =>
      rw [if_neg (by simp [hfab])]
      obtain ⟨l2, m, heq, hmin⟩ := ih b
      refine ⟨a :: l2, m, by simp [heq], ?_⟩
      intro x hx
      rcases List.mem_cons.mp hx with rfl | hx2
      · exact hneg x b m hfab (hmin b (List.mem_cons_self b l))
      · exact hmin x hx2

/-- Appending a dominated element is invisible to a pass. -/
theorem bubblePassAux_append_single (f : α → α → Bool) (m : α) :
    ∀ (a : α) (l : List α), (∀ x ∈ a :: l, f x m = false) →
      bubblePassAux f a (l ++ [m]) = bubblePassAux f a l ++ [m] := by
  intro a l
  induction l generalizing a with
  | nil =>
    intro h
    have ham : f a m = false := h a (List.mem_cons_self a [])
    simp [bubblePassAux, ham]
  | cons b l ih =>
    intro h
    rw [List.cons_append]
    simp only [bubblePassAux]
    split
    · rw [List.cons_append, ih a (fun x hx => by
        rcases List.mem_cons.mp hx with rfl | hx2
        · exact h x (List.mem_cons_self x (b :: l))
        · exact h x (List.mem_cons_of_mem a (List.mem_cons_of_mem b hx2)))]
    · rw [List.cons_append, ih b (fun x hx => h x (List.mem_cons_of_mem a hx))]

theorem bubblePass_append_single (f : α → α → Bool) (l : List α) (m : α)
    (h : ∀ x ∈ l, f x m = false) :
    bubblePass f (l ++ [m]) = bubblePass f l ++ [m] := by
  cases l with
  | nil => simp [bubblePass, bubblePassAux]
  | cons a l => exact bubblePassAux_append_single f m a l h

theorem bubblePass_iterate_append_single (f : α → α → Bool) (n : Nat) (l : List α) (m : α)
    (h : ∀ x ∈ l, f x m = false) :
    (bubblePass f)^[n] (l ++ [m]) = (bubblePass f)^[n] l ++ [m] := by
  induction n generalizing l with
  | zero => simp
  | succ n ih =>
    rw [Function.iterate_succ_apply, Function.iterate_succ_apply,
      bubblePass_append_single f l m h]
    exact ih (bubblePass f l) (fun x hx => h x ((bubblePass_perm f l).mem_iff.mp hx))

/-- After enough passes the list is pairwise in order. -/
theorem bubblePass_iterate_sorted (f : α → α → Bool)
    (hpos : ∀ a b c, f a b = true → f b c = true → f a c = true)
    (hneg : ∀ a b c, f a b = false → f b c = false → f a c = false)
    (hirr : ∀ a, f a a = false) :
    ∀ (n : Nat) (l : List α), l.length ≤ n + 1 →
      List.Pairwise (fun a b => f a b = false) ((bubblePass f)^[n] l) := by
  intro n
  induction n with
  | zero =>
    intro l hl
    match l, hl with
    | [], _ => simp
    | [a], _ => simp
    | a :: b :: l, hl => simp at hl
  | succ n ih =>
    intro l hl
    rw [Function.iterate_succ_apply]
    cases l with
    | nil =>
      have h : bubblePass f ([] : List α) = [] := rfl
      rw [h]
      exact ih [] (by simp)
    | cons a l =>
      obtain ⟨l2, m, heq, hmin⟩ := bubblePassAux_split f hpos hneg hirr a l
      have hpassl : bubblePass f (a :: l) = l2 ++ [m] := heq
      have hl2mem : ∀ x ∈ l2, x ∈ a :: l := by
        intro x hx
        have : x ∈ l2 ++ [m] := List.mem_append_left [m] hx
        rw [← hpassl] at this
        exact (bubblePass_perm f (a :: l)).mem_iff.mp this
      rw [hpassl, bubblePass_iterate_append_single f n l2 m
        (fun x hx => hmin x (hl2mem x hx))]
      rw [List.pairwise_append]
      have hlen2 : l2.length ≤ n + 1 := by
        have h1 : (l2 ++ [m]).length = (a :: l).length := by
          rw [← hpassl]; exact (bubblePass_perm f (a :: l)).length_eq
        simp at h1 hl ⊢
        omega
      refine ⟨ih l2 hlen2, List.pairwise_singleton _ _, ?_⟩
      intro x hx y hy
      have hxl2 : x ∈ l2 := (bubblePass_iterate_perm f n l2).mem_iff.mp hx
      have hym : y = m := List.mem_singleton.mp hy
      subst hym
      exact hmin x (hl2mem x hxl2)

/-- Bubble sort with an Int-key comparator computes a permutation of the
input that is pairwise sorted by descending key. -/
theorem bubbleSort_key_correct (key : α → Int) (f : α → α → Bool)
    (hf : ∀ a b, f a b = decide (key a < key b)) (l : List α) :
    (bubbleSort f l).Perm l ∧
      List.Pairwise (fun a b => key b ≤ key a) (bubbleSort f l) := by
  have hpos : ∀ a b c, f a b = true → f b c = true → f a c = true := by
    intro a b c h1 h2
    rw [hf] at h1 h2 ⊢
    simp only [decide_eq_true_eq] at h1 h2 ⊢
    omega
  have hneg : ∀ a b c, f a b = false → f b c = false → f a c = false := by
    intro a b c h1 h2
    rw [hf] at h1 h2 ⊢
    simp only [decide_eq_false_iff_not] at h1 h2 ⊢
    omega
  have hirr : ∀ a, f a a = false := by
    intro a
    rw [hf]
    simp
  refine ⟨bubblePass_iterate_perm f _ l, ?_⟩
  have hs := bubblePass_iterate_sorted f hpos hneg hirr (l.length - 1) l (by omega)
  exact hs.imp (by
    intro a b h
    rw [hf] at h
    simp only [decide_eq_false_iff_not] at h
    omega)

/-- Comparator of StockServiceImpl.GetMOEXTopGainers: adjacent elements are
swapped when the left percent-change is smaller (descending order). -/
def gainersOutOfOrder (a b : Stock) : Bool := decide (a.changePerc < b.changePerc)

/-- Comparator of StockServiceImpl.GetMOEXTopLosers: adjacent elements are
swapped when the left percent-change is larger (ascending order). -/
def losersOutOfOrder (a b : Stock) : Bool := decide (a.changePerc > b.changePerc)

/-- Comparator of NewsServiceImpl.GetRecentNews: adjacent elements are swapped
when the left item was published before the right one (newest first). -/
def recentNewsOutOfOrder (a b : News) : Bool := decide (a.publishedAt < b.publishedAt)

/-- Embedding of StockServiceImpl.GetMOEXTopGainers: default the limit, fetch
the whole universe, bubble sort by percent-change descending, clamp the limit
to the length, and take the prefix. -/
def StockServiceImpl.GetMOEXTopGainers (getStocks : Unit → Except String (List Stock))
    (limit : Int) : Except String (List Stock) :=
  let limit := if limit ≤ 0 then 10 else limit
  match getStocks () with
  | .error e => .error e
  | .ok stocks =>
    let sorted := bubbleSort gainersOutOfOrder stocks
    let limit := if limit > (sorted.length : Int) then (sorted.length : Int) else limit
    .ok (sorted.take limit.toNat)

/-- Embedding of StockServiceImpl.GetMOEXTopLosers: same shape with the
ascending comparator. -/
def StockServiceImpl.GetMOEXTopLosers (getStocks : Unit → Except String (List Stock))
    (limit : Int) : Except String (List Stock) :=
  let limit := if limit ≤ 0 then 10 else limit
  match getStocks () with
  | .error e => .error e
  | .ok stocks =>
    let sorted := bubbleSort losersOutOfOrder stocks
    let limit := if limit > (sorted.length : Int) then (sorted.length : Int) else limit
    .ok (sorted.take limit.toNat)

/-- Embedding of NewsServiceImpl.GetRecentNews: default the limit, fetch
today's news, bubble sort by published-at descending, clamp, take. -/
def NewsServiceImpl.GetRecentNews (getNewsForToday : Unit → Except String (List News))
    (limit : Int) : Except String (List News) :=
  let limit := if limit ≤ 0 then 10 else limit
  match getNewsForToday () with
  | .error e => .error e
  | .ok news =>
    let sorted := bubbleSort recentNewsOutOfOrder news
    let limit := if limit > (sorted.length : Int) then (sorted.length : Int) else limit
    .ok (sorted.take limit.toNat)

/-- The limit the spec describes: a non-positive request defaults to 10, then
the result length is clamped to the universe size. -/
def specLimit (limit : Int) (n : Nat) : Nat :=
  min (if limit ≤ 0 then 10 else limit.toNat) n

theorem clampedLimit_toNat (limit : Int) (n : Nat) :
    (if (if limit ≤ 0 then 10 else limit) > (n : Int) then (n : Int)
     else if limit ≤ 0 then 10 else limit).toNat = specLimit limit n := by
  unfold specLimit
  split_ifs <;> omega

/-- Shared shape of the three ranking services: the bubble-sorted list,
truncated at the clamped limit, is a take-prefix of a sorted permutation of
the universe, and its length is the spec limit. -/
theorem rankingResult_spec {α : Type} (key : α → Int) (f : α → α → Bool)
    (hf : ∀ a b, f a b = decide (key a < key b)) (items : List α) (limit : Int) :
    ∃ l : List α, l.Perm items ∧ List.Pairwise (fun a b => key b ≤ key a) l ∧
      (bubbleSort f items).take
        ((if (if limit ≤ 0 then 10 else limit) > ((bubbleSort f items).length : Int)
          then ((bubbleSort f items).length : Int)
          else if limit ≤ 0 then 10 else limit).toNat) =
        l.take (specLimit limit items.length) ∧
      (l.take (specLimit limit items.length)).length = specLimit limit items.length := by
  obtain ⟨hperm, hsort⟩ := bubbleSort_key_correct key f hf items
  refine ⟨bubbleSort f items, hperm, hsort, ?_, ?_⟩
  · rw [hperm.length_eq, clampedLimit_toNat]
  · rw [List.length_take, hperm.length_eq]
    unfold specLimit
    generalize (if limit ≤ 0 then 10 else limit.toNat) = k
    omega

theorem getMOEXTopGainers_ok (stocks : List Stock) (limit : Int) :
    StockServiceImpl.GetMOEXTopGainers (fun _ => .ok stocks) limit =
      .ok ((bubbleSort gainersOutOfOrder stocks).take
        ((if (if limit ≤ 0 then 10 else limit) >
              ((bubbleSort gainersOutOfOrder stocks).length : Int)
          then ((bubbleSort gainersOutOfOrder stocks).length : Int)
          else if limit ≤ 0 then 10 else limit).toNat)) := rfl

theorem getMOEXTopLosers_ok (stocks : List Stock) (limit : Int) :
    StockServiceImpl.GetMOEXTopLosers (fun _ => .ok stocks) limit =
      .ok ((bubbleSort losersOutOfOrder stocks).take
        ((if (if limit ≤ 0 then 10 else limit) >
              ((bubbleSort losersOutOfOrder stocks).length : Int)
          then ((bubbleSort losersOutOfOrder stocks).length : Int)
          else if limit ≤ 0 then 10 else limit).toNat)) := rfl

theorem getRecentNews_ok (news : List News) (limit : Int) :
    NewsServiceImpl.GetRecentNews (fun _ => .ok news) limit =
      .ok ((bubbleSort recentNewsOutOfOrder news).take
        ((if (if limit ≤ 0 then 10 else limit) >
              ((bubbleSort recentNewsOutOfOrder news).length : Int)
          then ((bubbleSort recentNewsOutOfOrder news).length : Int)
          else if limit ≤ 0 then 10 else limit).toNat)) := rfl

/-- C2: over any quote universe returned by the repository, GetMOEXTopGainers
returns a permutation of the universe sorted by percent-change descending and
truncated to min(N, universe size); GetMOEXTopLosers is the mirror ordering
with the same truncation; a non-positive N defaults to 10 in both. -/
theorem topGainers_topLosers_ranking (stocks : List Stock) (limit : Int) :
    (∃ l : List Stock, l.Perm stocks ∧
      List.Pairwise (fun a b : Stock => b.changePerc ≤ a.changePerc) l ∧
      StockServiceImpl.GetMOEXTopGainers (fun _ => .ok stocks) limit =
        .ok (l.take (specLimit limit stocks.length)) ∧
      (l.take (specLimit limit stocks.length)).length = specLimit limit stocks.length) ∧
    (∃ l : List Stock, l.Perm stocks ∧
      List.Pairwise (fun a b : Stock => a.changePerc ≤ b.changePerc) l ∧
      StockServiceImpl.GetMOEXTopLosers (fun _ => .ok stocks) limit =
        .ok (l.take (specLimit limit stocks.length)) ∧
      (l.take (specLimit limit stocks.length)).length = specLimit limit stocks.length) := by
  constructor
  · obtain ⟨l, hperm, hsort, htake, hlen⟩ :=
      rankingResult_spec (fun s : Stock => s.changePerc) gainersOutOfOrder
        (fun a b => by simp only [gainersOutOfOrder]) stocks limit
    refine ⟨l, hperm, hsort.imp ?_, by rw [getMOEXTopGainers_ok, htake], hlen⟩
    intro a b h
    exact h
  · obtain ⟨l, hperm, hsort, htake, hlen⟩ :=
      rankingResult_spec (fun s : Stock => -s.changePerc) losersOutOfOrder
        (fun a b => by
          unfold losersOutOfOrder
          rw [decide_eq_decide]
          show a.changePerc > b.changePerc ↔ -a.changePerc < -b.changePerc
          omega) stocks limit
    refine ⟨l, hperm, hsort.imp ?_, by rw [getMOEXTopLosers_ok, htake], hlen⟩
    intro a b h
    have h2 : -b.changePerc ≤ -a.changePerc := h
    omega

/-- C10: for every limit, GetRecentNews returns today's news sorted by
published-at descending (newest first), truncated to min(limit, item count),
with a non-positive limit defaulting to 10. -/
theorem getRecentNews_sorted_truncated (news : List News) (limit : Int) :
    ∃ l : List News, l.Perm news ∧
      List.Pairwise (fun a b : News => b.publishedAt ≤ a.publishedAt) l ∧
      NewsServiceImpl.GetRecentNews (fun _ => .ok news) limit =
        .ok (l.take (specLimit limit news.length)) ∧
      (l.take (specLimit limit news.length)).length = specLimit limit news.length := by
  obtain ⟨l, hperm, hsort, htake, hlen⟩ :=
    rankingResult_spec (fun n : News => (n.publishedAt : Int)) recentNewsOutOfOrder
      (fun a b => by
        unfold recentNewsOutOfOrder
        rw [decide_eq_decide]
        exact Int.ofNat_lt.symm) news limit
  refine ⟨l, hperm, hsort.imp ?_, by rw [getRecentNews_ok, htake], hlen⟩
  intro a b h
  have h2 : (b.publishedAt : Int) ≤ (a.publishedAt : Int) := h
  exact_mod_cast h2

/-- A concrete stock used in counterexamples and witnesses. -/
def sberStock : Stock :=
  { ticker := "SBER", name := "Сбербанк", price := 300, change := 5,
    changePerc := 2, volume := 1000000, updatedAt := 0 }

/-- C3: the claim fails on the code. containsIgnoreCase returns true for
every pair of strings, so SearchStocks returns the entire universe for any
non-empty query: the query ZZZZ matches neither the ticker SBER nor the name,
yet the stock is returned instead of an empty result. -/
theorem searchStocks_returns_nonmatching_stock :
    StockServiceImpl.SearchStocks (fun _ => .ok [sberStock]) "ZZZZ" = .ok [sberStock] := by
  rfl

/-- C4 counterexample: two distinct URLs whose stripped last path segments
coincide derive the same news id, refuting the no-collision part of the claim. -/
theorem generateNewsID_distinct_urls_collide :
    "https://a.ru/news/item-1".toList ≠ "https://b.ru/item-1".toList ∧
    generateNewsID 0 ("https://a.ru/news/item-1".toList) =
      generateNewsID 0 ("https://b.ru/item-1".toList) := by
  exact ⟨by decide, by decide⟩

/-- C4 (amended): generateNewsID is deterministic in the URL - its value does
not depend on the ambient timestamp (the fallback branch is unreachable since
splitting always yields at least one segment), so re-fetching the same URL
always derives the same id; but two different URLs may derive the same id when
their stripped last segments coincide. -/
theorem generateNewsID_deterministic :
    (∀ (now1 now2 : Nat) (url : List Char),
      generateNewsID now1 url = generateNewsID now2 url) ∧
    (∃ u v : List Char, u ≠ v ∧ generateNewsID 0 u = generateNewsID 0 v) := by
  constructor
  · intro now1 now2 url
    have h : (splitChar '/' url).length > 0 :=
      List.length_pos.mpr (splitChar_ne_nil '/' url)
    simp only [generateNewsID, if_pos h]
  · exact ⟨"https://a.ru/news/item-1".toList, "https://b.ru/item-1".toList,
      by decide, by decide⟩

/-- C6: empty-input validation is decided before any tier is consulted: for
every repository oracle, the result is the same validation error, so no cache,
store or provider call can influence (or be required for) the outcome. -/
theorem validation_precedes_io :
    (∀ getStock : String → Except String Stock,
      StockServiceImpl.GetStockInfo getStock "" = .error "тикер не может быть пустым") ∧
    (∀ getNewsByKeyword : String → Except String (List News),
      NewsServiceImpl.SearchNewsByKeyword getNewsByKeyword "" =
        .error "ключевое слово не может быть пустым") ∧
    (∀ getNewsForToday : Unit → Except String (List News),
      NewsServiceImpl.GetNewsForMultipleTickers getNewsForToday [] =
        .error "список тикеров не может быть пустым") := by
  exact ⟨fun _ => rfl, fun _ => rfl, fun _ => rfl⟩

/-- Association-list model of the cache port: Set always overwrites the key. -/
def cacheSet (m : List (String × α)) (key : String) (v : α) : List (String × α) :=
  (key, v) :: m.filter (fun e => e.1 != key)

/-- Association-list cache read. -/
def cacheGet (m : List (String × α)) (key : String) : Option α :=
  (m.find? (fun e => e.1 == key)).map (fun e => e.2)

/-- State of StockRepositoryImpl: the cache holds values together with the
TTL they were written with; the store is the Mongo stocks collection. -/
structure StockRepoState where
  cache : List (String × (Stock × Nat))
  store : List Stock
  deriving Repr, DecidableEq

/-- The cache-hit condition of StockRepositoryImpl.GetStock: the Get call
succeeded and the decoded stock has a non-empty ticker (a miss leaves the
destination zero-valued, so its ticker is empty). -/
def cacheHitStock (cache : List (String × (Stock × Nat))) (key : String) : Option Stock :=
  match cacheGet cache key with
  | some entry => if entry.1.ticker ≠ "" then some entry.1 else none
  | none => none

/-- Embedding of StockRepositoryImpl.GetStock: cache read (when enabled),
then store read with cache write-back at the configured TTL, then provider
fetch (wrapped by fetchStockFromAPI) with store insert and cache write-back;
a provider failure is propagated. A Mongo read error behaves as a miss, as in
the source where any FindOne error falls through to the provider. -/
def StockRepositoryImpl.GetStock (useCache : Bool) (cacheExpiry : Nat)
    (moexGetStock : String → Except String Stock)
    (st : StockRepoState) (ticker : String) : Except String (Stock × StockRepoState) :=
  let cacheKey := "stock:" ++ ticker
  match (if useCache then cacheHitStock st.cache cacheKey else none) with
  | some cachedStock => .ok (cachedStock, st)
  | none =>
    match st.store.find? (fun s => s.ticker == ticker) with
    | some stock =>
      let st2 := if useCache then
          { st with cache := cacheSet st.cache cacheKey (stock, cacheExpiry) }
        else st
      .ok (stock, st2)
    | none =>
      match moexGetStock ticker with
      | .error e => .error ("ошибка получения данных из MOEX API: " ++ e)
      | .ok stock =>
        let st2 := { st with store := st.store ++ [stock] }
        let st3 := if useCache then
            { st2 with cache := cacheSet st2.cache cacheKey (stock, cacheExpiry) }
          else st2
        .ok (stock, st3)

/-- C1: with caching enabled, GetStock first attempts the cache and returns a
hit immediately with no state change; on a cache miss it reads the store and
a hit is returned after writing the entry back into the cache with the
configured TTL; otherwise the provider is invoked and a success is inserted
into the store and written into the cache before being returned, while a
provider failure is propagated - every satisfied tier warms the tiers below. -/
theorem getStock_tiered_lookup (cacheExpiry : Nat)
    (moexGetStock : String → Except String Stock) (st : StockRepoState) (ticker : String) :
    (∀ c, cacheHitStock st.cache ("stock:" ++ ticker) = some c →
      StockRepositoryImpl.GetStock true cacheExpiry moexGetStock st ticker = .ok (c, st)) ∧
    (cacheHitStock st.cache ("stock:" ++ ticker) = none →
      ∀ s, st.store.find? (fun x => x.ticker == ticker) = some s →
        StockRepositoryImpl.GetStock true cacheExpiry moexGetStock st ticker =
          .ok (s, { st with
            cache := cacheSet st.cache ("stock:" ++ ticker) (s, cacheExpiry) })) ∧
    (cacheHitStock st.cache ("stock:" ++ ticker) = none →
      st.store.find? (fun x => x.ticker == ticker) = none →
      ∀ s, moexGetStock ticker = .ok s →
        StockRepositoryImpl.GetStock true cacheExpiry moexGetStock st ticker =
          .ok (s, { cache := cacheSet st.cache ("stock:" ++ ticker) (s, cacheExpiry),
                    store := st.store ++ [s] })) ∧
    (cacheHitStock st.cache ("stock:" ++ ticker) = none →
      st.store.find? (fun x => x.ticker == ticker) = none →
      ∀ e, moexGetStock ticker = .error e →
        StockRepositoryImpl.GetStock true cacheExpiry moexGetStock st ticker =
          .error ("ошибка получения данных из MOEX API: " ++ e)) := by
  refine ⟨?_, ?_, ?_, ?_⟩
  · intro c hc
    simp [StockRepositoryImpl.GetStock, hc]
  · intro hc s hs
    simp [StockRepositoryImpl.GetStock, hc, hs]
  · intro hc hs s hp
    simp [StockRepositoryImpl.GetStock, hc, hs, hp]
  · intro hc hs e hp
    simp [StockRepositoryImpl.GetStock, hc, hs, hp]

/-- The fully cold repository state. -/
def coldEmptyState : StockRepoState := { cache := [], store := [] }

/-- Witness for C1: on a cold system the provider result is returned and both
the store and the cache are warmed with it. -/
theorem getStock_tiered_lookup_witness :
    StockRepositoryImpl.GetStock true 900 (fun _ => .ok sberStock) coldEmptyState "SBER" =
      .ok (sberStock, { cache := [("stock:SBER", (sberStock, 900))], store := [sberStock] }) := by
  have h := (getStock_tiered_lookup 900 (fun _ => .ok sberStock)
    coldEmptyState "SBER").2.2.1 rfl rfl sberStock rfl
  rw [h]
  rfl

/-- State of NewsRepositoryImpl: the Mongo news collection plus the per-id
news cache entries with the TTL they were written with. -/
structure NewsRepoState where
  store : List News
  cache : List (String × (News × Nat))
  deriving Repr, DecidableEq

/-- Model of Mongo ReplaceOne: the first document matching the filter is
replaced, the rest are untouched. -/
def replaceFirst (p : α → Bool) (x : α) : List α → List α
  | [] => []
  | a :: l => if p a then x :: l else a :: replaceFirst p x l

/-- The FindOne-then-ReplaceOne-else-InsertOne sequence shared by both save
methods: replace the first document matching the filter when one exists,
otherwise insert the new document at the end of the collection. -/
def upsertBy (p : α → Bool) (x : α) (l : List α) : List α :=
  match l.find? p with
  | some _ => replaceFirst p x l
  | none => l ++ [x]

/-- Embedding of NewsRepositoryImpl.SaveNews: FindOne by id, ReplaceOne when
a document exists and InsertOne otherwise, then a cache write at the
configured TTL. -/
def NewsRepositoryImpl.SaveNews (useCache : Bool) (cacheExpiry : Nat)
    (news : News) (st : NewsRepoState) : NewsRepoState :=
  let store2 := upsertBy (fun d => d.id == news.id) news st.store
  let cache2 := if useCache then
      cacheSet st.cache ("news:" ++ news.id) (news, cacheExpiry)
    else st.cache
  { store := store2, cache := cache2 }

/-- Embedding of StockRepositoryImpl.SaveStock: the stock is stamped with the
ambient time.Now value (explicit parameter now), then FindOne by ticker,
ReplaceOne or InsertOne, then a cache write. -/
def StockRepositoryImpl.SaveStock (useCache : Bool) (cacheExpiry : Nat) (now : Nat)
    (stock0 : Stock) (st : StockRepoState) : StockRepoState :=
  let stock := { stock0 with updatedAt := now }
  let store2 := upsertBy (fun d => d.ticker == stock.ticker) stock st.store
  let cache2 := if useCache then
      cacheSet st.cache ("stock:" ++ stock.ticker) (stock, cacheExpiry)
    else st.cache
  { cache := cache2, store := store2 }

theorem replaceFirst_replaceFirst (p : α → Bool) (x : α) (hx : p x = true) :
    ∀ l : List α, replaceFirst p x (replaceFirst p x l) = replaceFirst p x l := by
  intro l
  induction l with
  | nil => rfl
  | cons a l ih =>
    simp only [replaceFirst]
    split
    · simp [replaceFirst, hx]
    · simp only [replaceFirst]
      rw [if_neg (by assumption), ih]

theorem find?_replaceFirst (p : α → Bool) (x : α) (hx : p x = true) :
    ∀ (l : List α) (y : α), l.find? p = some y →
      (replaceFirst p x l).find? p = some x := by
  intro l
  induction l with
  | nil => intro y h; simp at h
  | cons a l ih =>
    intro y h
    simp only [replaceFirst]
    cases hpa : p a with
    | true => simp [List.find?_cons, hpa, hx]
    | false =>
      rw [if_neg (by simp [hpa])]
      rw [List.find?_cons_of_neg _ (by simp [hpa])]
      rw [List.find?_cons_of_neg _ (by simp [hpa])] at h
      exact ih y h

theorem find?_append_single (p : α → Bool) (x : α) (hx : p x = true)
    (l : List α) (h : l.find? p = none) : (l ++ [x]).find? p = some x := by
  induction l with
  | nil => simp [List.find?_cons, hx]
  | cons a l ih =>
    rw [List.find?_eq_none] at h
    have hpa : p a = false := by simpa using h a (List.mem_cons_self a l)
    rw [List.cons_append, List.find?_cons_of_neg _ (by simp [hpa])]
    exact ih (List.find?_eq_none.mpr (fun y hy => h y (List.mem_cons_of_mem a hy)))

theorem replaceFirst_append_single (p : α → Bool) (x : α) (hx : p x = true)
    (l : List α) (h : l.find? p = none) : replaceFirst p x (l ++ [x]) = l ++ [x] := by
  induction l with
  | nil => simp [replaceFirst, hx]
  | cons a l ih =>
    rw [List.cons_append]
    simp only [replaceFirst]
    have hpa : p a = false := by
      rw [List.find?_eq_none] at h
      simpa using h a (List.mem_cons_self a l)
    rw [if_neg (by simp [hpa])]
    rw [ih (by rw [List.find?_cons_of_neg _ (by simp [hpa])] at h; exact h)]

theorem cacheSet_idem (m : List (String × α)) (k : String) (v : α) :
    cacheSet (cacheSet m k v) k v = cacheSet m k v := by
  simp [cacheSet, List.filter_filter]

theorem upsertBy_idem (p : α → Bool) (x : α) (hx : p x = true) (l : List α) :
    upsertBy p x (upsertBy p x l) = upsertBy p x l := by
  unfold upsertBy
  cases hfind : l.find? p with
  | some y =>
    rw [find?_replaceFirst p x hx l y hfind]
    exact replaceFirst_replaceFirst p x hx l
  | none =>
    rw [find?_append_single p x hx l hfind]
    exact replaceFirst_append_single p x hx l hfind

/-- C7: both upserts are idempotent - saving an identical news item or stock
twice (at the same ambient time for stocks, which is the only implicit input)
leaves the repository state, store and cache alike, exactly as one save. -/
theorem save_upsert_idempotent :
    (∀ (useCache : Bool) (cacheExpiry : Nat) (news : News) (st : NewsRepoState),
      NewsRepositoryImpl.SaveNews useCache cacheExpiry news
          (NewsRepositoryImpl.SaveNews useCache cacheExpiry news st) =
        NewsRepositoryImpl.SaveNews useCache cacheExpiry news st) ∧
    (∀ (useCache : Bool) (cacheExpiry now : Nat) (stock : Stock) (st : StockRepoState),
      StockRepositoryImpl.SaveStock useCache cacheExpiry now stock
          (StockRepositoryImpl.SaveStock useCache cacheExpiry now stock st) =
        StockRepositoryImpl.SaveStock useCache cacheExpiry now stock st) := by
  constructor
  · intro useCache cacheExpiry news st
    have hx : (fun d : News => d.id == news.id) news = true := by simp
    simp only [NewsRepositoryImpl.SaveNews]
    cases useCache with
    | true =>
      simp [cacheSet_idem]
      exact upsertBy_idem (fun d : News => d.id == news.id) news hx st.store
    | false =>
      simp
      exact upsertBy_idem (fun d : News => d.id == news.id) news hx st.store
  · intro useCache cacheExpiry now stock st
    have hx : (fun d : Stock => d.ticker == stock.ticker) { stock with updatedAt := now } = true := by
      simp
    simp only [StockRepositoryImpl.SaveStock]
    cases useCache with
    | true =>
      simp [cacheSet_idem]
      exact upsertBy_idem (fun d : Stock => d.ticker == stock.ticker)
        { stock with updatedAt := now } hx st.store
    | false =>
      simp
      exact upsertBy_idem (fun d : Stock => d.ticker == stock.ticker)
        { stock with updatedAt := now } hx st.store

/-- The dedup loop equals a plain filter when the seen set is disjoint from
the incoming ids and the ids are pairwise distinct. -/
theorem newsMatchLoop_eq_filter (tickers : List String) :
    ∀ (l : List News) (seen : List String),
      (∀ n ∈ l, seen.contains n.id = false) → (l.map (fun n => n.id)).Nodup →
      newsMatchLoop tickers l seen =
        l.filter (fun n => tickers.any (fun t => containsTickerInNews n t)) := by
  intro l
  induction l with
  | nil => intro seen h1 h2; rfl
  | cons n rest ih =>
    intro seen hseen hnodup
    rw [List.map_cons, List.nodup_cons] at hnodup
    have hn : seen.contains n.id = false := hseen n (List.mem_cons_self n rest)
    simp only [newsMatchLoop]
    by_cases hmatch : tickers.any (fun t => containsTickerInNews n t) = true
    · rw [if_pos hmatch, if_neg (by simpa using hn),
        @List.filter_cons_of_pos News (fun m => tickers.any (fun t => containsTickerInNews m t))
          n rest hmatch]
      congr 1
      apply ih
      · intro m hm
        have hne : m.id ≠ n.id := by
          intro he
          exact hnodup.1 (he ▸ List.mem_map_of_mem (fun x => x.id) hm)
        have hms : m.id ∉ seen := by simpa using hseen m (List.mem_cons_of_mem n hm)
        simp [List.contains_cons, hne, hms]
      · exact hnodup.2
    · rw [if_neg hmatch,
        @List.filter_cons_of_neg News (fun m => tickers.any (fun t => containsTickerInNews m t))
          n rest (by simpa using hmatch)]
      exact ih seen (fun m hm => hseen m (List.mem_cons_of_mem n hm)) hnodup.2

/-- C5: for a non-empty ticker list and today's news with pairwise-distinct
ids, GetNewsForMultipleTickers returns exactly the items matching some
provided ticker (per containsTickerInNews), and each such item occurs exactly
once in the result even when it matches several of the tickers. -/
theorem getNewsForMultipleTickers_dedup (tickers : List String) (news : List News)
    (ht : tickers ≠ []) (hids : (news.map (fun n => n.id)).Nodup) :
    NewsServiceImpl.GetNewsForMultipleTickers (fun _ => .ok news) tickers =
      .ok (news.filter (fun n => tickers.any (fun t => containsTickerInNews n t))) ∧
    ∀ x ∈ news, tickers.any (fun t => containsTickerInNews x t) = true →
      (news.filter (fun n => tickers.any (fun t => containsTickerInNews n t))).count x = 1 := by
  constructor
  · simp only [NewsServiceImpl.GetNewsForMultipleTickers]
    rw [if_neg (by simp [ht])]
    exact congrArg Except.ok (newsMatchLoop_eq_filter tickers news [] (fun n _ => rfl) hids)
  · intro x hx hmatch
    have hnd : news.Nodup := List.Nodup.of_map _ hids
    have hfnd := hnd.filter (fun n => tickers.any (fun t => containsTickerInNews n t))
    exact List.count_eq_one_of_mem hfnd (List.mem_filter.mpr ⟨hx, hmatch⟩)

/-- A concrete news item whose relatedTo set names two tickers. -/
def newsItemBoth : News :=
  { id := "item-1", title := "Сбербанк и Газпром", description := "", content := "",
    url := "https://a.ru/news/item-1", source := "", publishedAt := 0, createdAt := 0,
    tags := [], relatedTo := ["SBER", "GAZP"] }

/-- Witness for C5: an item related to both requested tickers appears exactly
once in the result. -/
theorem getNewsForMultipleTickers_dedup_witness :
    NewsServiceImpl.GetNewsForMultipleTickers (fun _ => .ok [newsItemBoth]) ["SBER", "GAZP"] =
      .ok [newsItemBoth] := by
  have h := (getNewsForMultipleTickers_dedup ["SBER", "GAZP"] [newsItemBoth]
    (by decide) (by decide)).1
  rw [h]
  rfl

/-- Reply of the Redis backend for a Get call: a stored payload, the
redis.Nil miss marker, or a backend failure. -/
inductive RedisReply (D : Type) where
  | found (val : D)
  | nilReply
  | backendErr (e : String)

/-- Embedding of RedisCache.Get: a redis.Nil reply returns a nil error
without touching the destination, any other backend error is returned as is,
and a found payload is unmarshalled into the destination. -/
def RedisCache.Get {D V : Type} (unmarshal : D → Except String V)
    (reply : RedisReply D) (dest : V) : Except String V :=
  match reply with
  | .found val => unmarshal val
  | .nilReply => .ok dest
  | .backendErr e => .error e

/-- Embedding of InMemoryCache.Get: a key not found in the backing map
returns a nil error without touching the destination; a found value makes a
marshal/unmarshal round trip whose failures are the only possible errors. -/
def InMemoryCache.Get {V D W : Type} (marshal : V → Except String D)
    (unmarshal : D → Except String W) (store : String → Option V)
    (key : String) (dest : W) : Except String W :=
  match store key with
  | none => .ok dest
  | some val =>
    match marshal val with
    | .error e => .error e
    | .ok data => unmarshal data

/-- C8: for both cache backends a miss is not an error - RedisCache.Get maps
the redis.Nil reply to a nil error with the destination unchanged while a
true backend failure returns that error, and InMemoryCache.Get returns a nil
error with the destination unchanged when the key is absent - so callers can
distinguish absence from backend failure. -/
theorem cache_get_miss_not_error :
    (∀ (D V : Type) (unmarshal : D → Except String V) (dest : V),
      RedisCache.Get unmarshal (RedisReply.nilReply : RedisReply D) dest = .ok dest) ∧
    (∀ (D V : Type) (unmarshal : D → Except String V) (dest : V) (e : String),
      RedisCache.Get unmarshal (RedisReply.backendErr e : RedisReply D) dest = .error e) ∧
    (∀ (V D W : Type) (marshal : V → Except String D) (unmarshal : D → Except String W)
        (store : String → Option V) (key : String) (dest : W),
      store key = none →
        InMemoryCache.Get marshal unmarshal store key dest = .ok dest) := by
  refine ⟨fun D V um dest => rfl, fun D V um dest e => rfl, ?_⟩
  intro V D W m um store key dest h
  simp [InMemoryCache.Get, h]

/-- Witness for C8: an in-memory Get on an absent key leaves the destination
unchanged and reports no error. -/
theorem cache_get_miss_not_error_witness :
    InMemoryCache.Get (fun v : Stock => (Except.ok v : Except String Stock))
      (fun d : Stock => (Except.ok d : Except String Stock))
      (fun _ => none) "stock:SBER" sberStock = .ok sberStock :=
  cache_get_miss_not_error.2.2 Stock Stock Stock
    (fun v => Except.ok v) (fun d => Except.ok d)
    (fun _ => none) "stock:SBER" sberStock rfl

/-- Embedding of NewsRepositoryImpl.GetNewsByDate. The date is truncated to
day granularity; the cache is consulted when enabled (a hit requires a
non-empty decoded list), then the store is queried for items published inside
the day; on a double miss the fetchTodayNewsFromAPI helper is invoked only
when the requested day is the current day, otherwise the empty list is
returned. Go compares the calendar year, month and day of the truncated date
with those of time.Now, which is day-number equality here. The cache
write-backs performed on hits do not affect the returned value and are kept
out of this embedding. -/
def NewsRepositoryImpl.GetNewsByDate (useCache : Bool)
    (cache : String → Option (List News)) (store : List News)
    (fetchTodayNewsFromAPI : Unit → Except String (List News))
    (now date : Nat) : Except String (List News) :=
  let startDate := date / 86400 * 86400
  let endDate := startDate + 86400
  let cacheKey := "news:date:" ++ toString (startDate / 86400)
  let cached : Option (List News) :=
    if useCache then
      match cache cacheKey with
      | some cachedNews => if cachedNews.length > 0 then some cachedNews else none
      | none => none
    else none
  match cached with
  | some cachedNews => .ok cachedNews
  | none =>
    let news := store.filter (fun n =>
      decide (startDate ≤ n.publishedAt) && decide (n.publishedAt < endDate))
    if news.length > 0 then .ok news
    else if startDate / 86400 = now / 86400 then fetchTodayNewsFromAPI ()
    else .ok []

/-- C9: when the requested date is not the current day and its news is absent
from both the cache and the store, GetNewsByDate returns the empty list and
the result is the same for every provider oracle, so the provider is never
consulted for historical dates. -/
theorem getNewsByDate_not_today_no_provider (useCache : Bool)
    (cache : String → Option (List News)) (store : List News) (now date : Nat)
    (hday : date / 86400 ≠ now / 86400)
    (hcache : ∀ l, cache ("news:date:" ++ toString (date / 86400 * 86400 / 86400)) = some l →
      l = [])
    (hstore : store.filter (fun n =>
      decide (date / 86400 * 86400 ≤ n.publishedAt) &&
      decide (n.publishedAt < date / 86400 * 86400 + 86400)) = []) :
    ∀ fetchTodayNewsFromAPI : Unit → Except String (List News),
      NewsRepositoryImpl.GetNewsByDate useCache cache store fetchTodayNewsFromAPI now date =
        .ok [] := by
  intro fetchTodayNewsFromAPI
  have hsd : date / 86400 * 86400 / 86400 = date / 86400 := by omega
  have hcached : (if useCache then
      match cache ("news:date:" ++ toString (date / 86400 * 86400 / 86400)) with
      | some cachedNews => if cachedNews.length > 0 then some cachedNews else none
      | none => none
    else none) = (none : Option (List News)) := by
    cases useCache with
    | false => rfl
    | true =>
      simp only [if_true]
      cases hc : cache ("news:date:" ++ toString (date / 86400 * 86400 / 86400)) with
      | none => rfl
      | some l =>
        have hl := hcache l hc
        subst hl
        rfl
  simp only [NewsRepositoryImpl.GetNewsByDate]
  rw [hcached, hstore]
  simp [hsd, hday]

/-- Witness for C9: on a cold cache and empty store, a two-days-old date
yields the empty list even though the provider oracle has news to offer. -/
theorem getNewsByDate_not_today_no_provider_witness :
    NewsRepositoryImpl.GetNewsByDate true (fun _ => none) []
      (fun _ => .ok [newsItemBoth]) 172800 0 = .ok [] :=
  getNewsByDate_not_today_no_provider true (fun _ => none) [] 172800 0
    (by decide) (fun l h => by simp at h) rfl (fun _ => .ok [newsItemBoth])

end StocksInfo
